import Mathlib

/-!
Verification of the terf extraction pipeline, a shallow embedding of
cmd/terf/extract.go.

Modelling conventions:
* Go errors are modelled as strings (`Err`); a fallible operation of the
  environment (os.Open, os.MkdirAll, img.Save, ...) is represented by an
  `Option Err` describing whether it fails and with which error.
* The decoder library (github.com/ubccr/terf) is an external collaborator:
  a shard file is modelled by the sequence of outcomes its reader produces
  (`ShardStep`), ending at EOF after the list is exhausted.
* The filesystem of written image files is a list of paths (file contents
  are not tracked; MkdirAll is idempotent, so only its possible failure is
  modelled).
* fmt.Sprintf with the %d verb is modelled by `intDec`, decimal rendering
  of a Go int; filepath.Join is modelled by interposing "/".
-/

abbrev Err := String

/-- The fields of terf.Image that extract.go reads (ID, LabelID, LabelText,
Organization); the binary payload is not inspected by the pipeline and is
not modelled. -/
structure Image where
  ID : Int
  LabelID : Int
  LabelText : String
  Organization : String
deriving DecidableEq, Repr

/-- ImageRecord as used by extract.go (fields Path, ID, LabelID, LabelText,
Organization, written to the csv index). -/
structure ImageRecord where
  Path : String
  ID : Int
  LabelID : Int
  LabelText : String
  Organization : String
deriving DecidableEq, Repr

/-- Decimal digits with explicit fuel (the recursion divides by 10, so any
fuel above the number itself is enough; fuel-based structural recursion
keeps the definition computable by the kernel). -/
def natDecGo : Nat → Nat → List Char
  | 0, _ => []
  | fuel + 1, n =>
    if n < 10 then [Char.ofNat (48 + n)]
    else natDecGo fuel (n / 10) ++ [Char.ofNat (48 + n % 10)]

/-- Decimal digits of a natural number, most significant first; the model of
strconv.Itoa on non-negative values. -/
def natDecL (n : Nat) : List Char :=
  natDecGo (n + 1) n

/-- Model of fmt.Sprintf("%d", i) for a Go int. -/
def intDecL (i : Int) : List Char :=
  if i < 0 then '-' :: natDecL i.natAbs else natDecL i.natAbs

def intDec (i : Int) : String :=
  ⟨intDecL i⟩

/-- Split a character list on the path separator; elements may be empty
(a//b splits into a, empty, b). -/
def splitSlash : List Char → List (List Char)
  | [] => [[]]
  | c :: rest =>
    if c = '/' then [] :: splitSlash rest
    else
      match splitSlash rest with
      | [] => [[c]]
      | e :: es => (c :: e) :: es

/-- Join path elements with the separator. -/
def joinSlash : List (List Char) → List Char
  | [] => []
  | [e] => e
  | e :: es => e ++ '/' :: joinSlash es

/-- One element step of path.Clean on a rooted path: empty and dot elements
vanish, dot-dot pops the element before it (vanishing at the root), any
other element is kept. -/
def cleanPushR (stack : List (List Char)) (e : List Char) : List (List Char) :=
  if e = [] ∨ e = ['.'] then stack
  else if e = ['.', '.'] then stack.dropLast
  else stack ++ [e]

/-- One element step of path.Clean on a relative path: as in the rooted
case, except that dot-dot is kept when there is no poppable element left. -/
def cleanPushNR (stack : List (List Char)) (e : List Char) :
    List (List Char) :=
  if e = [] ∨ e = ['.'] then stack
  else if e = ['.', '.'] then
    match stack.getLast? with
    | some l => if l = ['.', '.'] then stack ++ [e] else stack.dropLast
    | none => stack ++ [e]
  else stack ++ [e]

/-- Model of filepath.Clean for slash-separated paths: the empty path cleans
to dot; a rooted path keeps its leading separator and its elements are
processed with `cleanPushR`; a relative path is processed with `cleanPushNR`
and an empty outcome cleans to dot. -/
def cleanPath (cs : List Char) : List Char :=
  match cs with
  | [] => ['.']
  | c :: rest =>
    if c = '/' then
      '/' :: joinSlash (List.foldl cleanPushR [] (splitSlash rest))
    else
      match joinSlash (List.foldl cleanPushNR [] (splitSlash (c :: rest))) with
      | [] => ['.']
      | r => r

/-- Model of filepath.Join: empty elements are skipped, the rest are joined
with the separator and the result is cleaned; all elements empty yields the
empty string. -/
def filepathJoin (elems : List String) : String :=
  if (elems.filter (fun e => !(e == ""))).isEmpty then ""
  else ⟨cleanPath (joinSlash ((elems.filter (fun e => !(e == ""))).map
    String.data))⟩

/-- filepath.Join on two components (extract.go lines 76, 115, 149). -/
def pathJoin (a b : String) : String :=
  filepathJoin [a, b]

/-- filepath.Join(outdir, img.LabelText, fmt.Sprintf("%d.jpg", img.ID))
(extract.go line 251). -/
def imagePath (outdir : String) (img : Image) : String :=
  filepathJoin [outdir, img.LabelText, intDec img.ID ++ ".jpg"]

/-- The ImageRecord built from a decoded image (extract.go lines 258-264). -/
def recordOf (outdir : String) (img : Image) : ImageRecord :=
  { Path := imagePath outdir img
    ID := img.ID
    LabelID := img.LabelID
    LabelText := img.LabelText
    Organization := img.Organization }

/-- One iteration of the reader loop of extractFile: either r.Next() fails
(non-EOF), or terf.NewImageFromExample fails, or an image is decoded and the
subsequent os.MkdirAll and img.Save calls each succeed or fail. -/
inductive ShardStep where
  | nextErr (e : Err)
  | imageErr (e : Err)
  | entity (img : Image) (mkdirRes : Option Err) (saveRes : Option Err)
deriving DecidableEq, Repr

/-- A shard file as the extractor observes it: whether os.Open fails, whether
zlib.NewReader fails (consulted only with compression on), and the reader
iterations before EOF. -/
structure Shard where
  openErr : Option Err
  zlibErr : Option Err
  steps : List ShardStep
deriving DecidableEq, Repr

/-- The image successfully produced by a step, if any. -/
def stepImage? : ShardStep → Option Image
  | .entity img none none => some img
  | _ => none

/-- The error a step raises, if any (decode, directory-creation or write
error, in the order the code encounters them). -/
def stepErr? : ShardStep → Option Err
  | .nextErr e => some e
  | .imageErr e => some e
  | .entity _ (some e) _ => some e
  | .entity _ none (some e) => some e
  | .entity _ none none => none

/-- The images decoded by a list of steps. -/
def entitiesOf (steps : List ShardStep) : List Image :=
  steps.filterMap stepImage?

def shardEntities (s : Shard) : List Image :=
  entitiesOf s.steps

/-- The for-loop of extractFile (extract.go lines 234-267), threading the
list of image files written so far. For each decoded image the destination
directory is ensured, the payload is saved as <outdir>/<LabelText>/<ID>.jpg,
and only then is the ImageRecord appended; any error aborts immediately,
discarding the record list but keeping the files already written. (The Go
code appends to a slice; building the same list by consing the head onto the
recursive result yields the identical order.) -/
def extractSteps (outdir : String) (fs : List String) :
    List ShardStep → List String × Except Err (List ImageRecord)
  | [] => (fs, .ok [])
  | .nextErr e :: _ => (fs, .error e)
  | .imageErr e :: _ => (fs, .error e)
  | .entity _ (some e) _ :: _ => (fs, .error e)
  | .entity _ none (some e) :: _ => (fs, .error e)
  | .entity img none none :: rest =>
    match extractSteps outdir (fs ++ [imagePath outdir img]) rest with
    | (fs', .error e) => (fs', .error e)
    | (fs', .ok recs) => (fs', .ok (recordOf outdir img :: recs))

/-- extractFile (extract.go lines 207-270): open the shard, optionally layer
zlib decompression over it, then run the reader loop. -/
def extractFile (shard : Shard) (outdir : String) (compress : Bool)
    (fs : List String) : List String × Except Err (List ImageRecord) :=
  match shard.openErr with
  | some e => (fs, .error e)
  | none =>
    if compress then
      match shard.zlibErr with
      | some e => (fs, .error e)
      | none => extractSteps outdir fs shard.steps
    else extractSteps outdir fs shard.steps

def InfoFile : String := "info.csv"

/-- The header row written by writeHeader (extract.go lines 177-187). -/
def headerRow : List String :=
  ["image_path", "id", "label_id", "label_text", "organization"]

/-- The csv row written for one ImageRecord (extract.go lines 191-197). -/
def labelRow (i : ImageRecord) : List String :=
  [i.Path, intDec i.ID, intDec i.LabelID, i.LabelText, i.Organization]

/-- writeLabels (extract.go lines 189-205) at row granularity. -/
def writeLabels (images : List ImageRecord) : List (List String) :=
  images.map labelRow

/-- Observable outcome of one run of Extract: image files written (in
order), the records collected, whether <outdir>/info.csv was successfully
created, the rows handed to the csv writer, whether the writer was flushed,
and the returned error. -/
structure RunOut where
  files : List String
  records : List ImageRecord
  infoCreated : Bool
  rows : List (List String)
  flushed : Bool
  err : Option Err
deriving DecidableEq, Repr

/-- The single-shard-file branch of Extract (extract.go lines 66-96):
extract, fail the run when no images were produced, otherwise create
info.csv, write the header and one row per record, and flush. The csv
writer buffers rows in memory, so writes into it do not fail; failures of
the underlying file surface at Flush via w.Error, modelled by flushErr. -/
def extractSingle (shard : Shard) (outdir : String) (compress : Bool)
    (createInfoErr flushErr : Option Err) : RunOut :=
  match extractFile shard outdir compress [] with
  | (fs, .error e) => ⟨fs, [], false, [], false, some e⟩
  | (fs, .ok images) =>
    if images.length = 0 then
      ⟨fs, [], false, [], false, some "No images found"⟩
    else
      match createInfoErr with
      | some e => ⟨fs, images, false, [], false, some e⟩
      | none =>
        ⟨fs, images, true, headerRow :: writeLabels images, true, flushErr⟩

/-- One entry of the input directory, as reported by the filesystem. -/
structure DirEnt where
  name : String
  isDir : Bool
deriving DecidableEq, Repr

/-- Lexicographic strict comparison of character lists; the model of the Go
string comparison names[i] < names[j] used by the ReadDir sort. -/
def charListLt : List Char → List Char → Bool
  | [], [] => false
  | [], _ :: _ => true
  | _ :: _, [] => false
  | a :: as, b :: bs =>
    if a.toNat < b.toNat then true
    else if b.toNat < a.toNat then false
    else charListLt as bs

def nameLt (a b : String) : Bool :=
  charListLt a.data b.data

/-- Insert an entry into a name-sorted list (ascending, stable). -/
def insertByName (a : DirEnt) : List DirEnt → List DirEnt
  | [] => [a]
  | b :: l => if nameLt a.name b.name then a :: b :: l else b :: insertByName a l

/-- ioutil.ReadDir returns the entries of a directory sorted by filename;
this sort models that guarantee over the raw listing order. -/
def sortByName : List DirEnt → List DirEnt
  | [] => []
  | a :: l => insertByName a (sortByName l)

/-- The path sequence fed to the workers: a single file input yields itself;
a directory input is listed by ioutil.ReadDir (sorted by filename, extract.go
line 104), sub-directories are skipped (lines 110-112) and each remaining
name is joined to the input path (line 115). -/
def enumerate (inputPath : String) (isDirInput : Bool) (raw : List DirEnt) :
    List String :=
  if isDirInput then
    ((sortByName raw).filter (fun f => !f.isDir)).map
      (fun f => pathJoin inputPath f.name)
  else [inputPath]

/-- Written directly from the words of the spec (section 4.1): entries "in
the order reported by the underlying directory listing (no explicit sort)",
sub-directories excluded; kept for comparison with `enumerate`. -/
def enumerateListingOrder (inputPath : String) (isDirInput : Bool)
    (raw : List DirEnt) : List String :=
  if isDirInput then
    (raw.filter (fun f => !f.isDir)).map (fun f => pathJoin inputPath f.name)
  else [inputPath]

/-- Sequential model of the worker pool (extract.go lines 125-142) over the
enumerated shards: each shard is extracted in turn, the first error aborts
the run and discards the collected per-shard record lists, success collects
one record list per shard in arrival order. (Which arrival order, that is,
which permutation of the shards a concurrent schedule delivers, does not
matter for the properties proved below; the identity order is used.) -/
def processShards (outdir : String) (compress : Bool) (fs : List String) :
    List Shard → List String × Except Err (List (List ImageRecord))
  | [] => (fs, .ok [])
  | s :: rest =>
    match extractFile s outdir compress fs with
    | (fs', .error e) => (fs', .error e)
    | (fs', .ok recs) =>
      match processShards outdir compress fs' rest with
      | (fs'', .error e) => (fs'', .error e)
      | (fs'', .ok ls) => (fs'', .ok (recs :: ls))

/-- All images decoded over a run, shard by shard in arrival order. -/
def allEntities (shards : List Shard) : List Image :=
  (shards.map shardEntities).flatten

/-- The directory branch of Extract (extract.go lines 98-174), sequential
model: info.csv is created and the header written while the pool runs; the
rows of each per-shard result are appended as it arrives; the first worker
or enumerator error becomes the run error (rows already handed to the csv
writer before the failure stay in its buffer but the writer is not flushed,
so only the successful run flushes). -/
def extractDir (inputPath : String) (entries : List DirEnt)
    (shardAt : String → Shard) (outdir : String) (compress : Bool)
    (createInfoErr readDirErr flushErr : Option Err) : RunOut :=
  match createInfoErr with
  | some e => ⟨[], [], false, [], false, some e⟩
  | none =>
    match readDirErr with
    | some e => ⟨[], [], true, [headerRow], false, some e⟩
    | none =>
      let paths := enumerate inputPath true entries
      match processShards outdir compress [] (paths.map shardAt) with
      | (fs, .error e) => ⟨fs, [], true, [headerRow], false, some e⟩
      | (fs, .ok ls) =>
        ⟨fs, ls.flatten, true, headerRow :: writeLabels ls.flatten, true,
          flushErr⟩

/-- threads == 0 means one worker per CPU (extract.go lines 57-59). -/
def resolveThreads (threads numCPU : Nat) : Nat :=
  if threads = 0 then numCPU else threads

/-- Everything the environment decides about one run of Extract: the
arguments, the result of filepath.Abs on the output path, the outcomes of
the preparatory filesystem calls, what os.Stat reports about the input, the
raw directory listing, the shard stored at each path, and the outcomes of
the index-file operations. -/
structure World where
  inputPath : String
  outPath : String
  outdir : String
  absErr : Option Err
  mkOutdirErr : Option Err
  statErr : Option Err
  statIsDir : Bool
  entries : List DirEnt
  shardAt : String → Shard
  compress : Bool
  threads : Nat
  numCPU : Nat
  createInfoErr : Option Err
  readDirErr : Option Err
  flushErr : Option Err

def errOut (e : Err) : RunOut :=
  ⟨[], [], false, [], false, some e⟩

/-- Extract (extract.go lines 42-175): argument check, filepath.Abs,
os.MkdirAll on the output directory, os.Stat on the input, then the
single-file branch or the directory branch. -/
def Extract (w : World) : RunOut :=
  if w.outPath.length = 0 then errOut "Please provide an output directory"
  else
    match w.absErr with
    | some e => errOut e
    | none =>
      match w.mkOutdirErr with
      | some e => errOut e
      | none =>
        match w.statErr with
        | some e => errOut e
        | none =>
          if !w.statIsDir then
            extractSingle (w.shardAt w.inputPath) w.outdir w.compress
              w.createInfoErr w.flushErr
          else
            extractDir w.inputPath w.entries w.shardAt w.outdir w.compress
              w.createInfoErr w.readDirErr w.flushErr

/-- State of the bufio.Writer (default 4096-byte buffer) that encoding/csv
places between the rows and <outdir>/info.csv: `file` is what has reached
the file, `buf` what is still in memory. -/
structure BufWriter where
  file : String
  buf : String
deriving DecidableEq, Repr

def bufSize : Nat := 4096

/-- The UTF-8 byte count of a character list (each character contributes
Char.utf8Size bytes); the buffer capacity of bufio is counted in bytes. -/
def utf8LenL (l : List Char) : Nat :=
  (l.map Char.utf8Size).sum

def utf8Len (s : String) : Nat :=
  utf8LenL s.data

/-- A write into the bufio.Writer: it stays in the buffer while the buffer
capacity (in bytes) is not exceeded; once a write overflows the buffer, the
buffered bytes (and, past capacity, the new bytes) are written through to
the file. -/
def bufWrite (st : BufWriter) (s : String) : BufWriter :=
  if utf8Len (st.buf ++ s) ≤ bufSize then { st with buf := st.buf ++ s }
  else { file := st.file ++ st.buf ++ s, buf := "" }

/-- w.Flush: empty the buffer into the file. -/
def bufFlush (st : BufWriter) : BufWriter :=
  { file := st.file ++ st.buf, buf := "" }

/-- The White_Space code points, the set unicode.IsSpace accepts. -/
def isUnicodeSpace (c : Char) : Bool :=
  decide ((9 ≤ c.toNat ∧ c.toNat ≤ 13) ∨ c.toNat = 32 ∨ c.toNat = 133 ∨
    c.toNat = 160 ∨ c.toNat = 5760 ∨ (8192 ≤ c.toNat ∧ c.toNat ≤ 8202) ∨
    c.toNat = 8232 ∨ c.toNat = 8233 ∨ c.toNat = 8239 ∨ c.toNat = 8287 ∨
    c.toNat = 12288)

/-- csv.Writer.fieldNeedsQuotes with the default comma separator: a field is
quoted when it is the literal backslash-dot, contains the separator, a
quote or a line break, or begins with white space; the empty field is not
quoted. -/
def fieldNeedsQuotes (f : String) : Bool :=
  if f = "" then false
  else if f = "\\." then true
  else if f.data.any (fun c => c == ',' || c == '"' || c == '\r' || c == '\n')
  then true
  else
    match f.data with
    | [] => false
    | c :: _ => isUnicodeSpace c

/-- A quoted csv field: wrapped in quotes, inner quotes doubled (with
UseCRLF unset, carriage returns and line feeds are copied through). -/
def quoteField (f : List Char) : List Char :=
  '"' :: (f.map (fun c => if c = '"' then ['"', '"'] else [c])).flatten ++ ['"']

def renderField (f : String) : List Char :=
  if fieldNeedsQuotes f then quoteField f.data else f.data

/-- Join rendered fields with the comma separator. -/
def joinComma : List (List Char) → List Char
  | [] => []
  | [e] => e
  | e :: es => e ++ ',' :: joinComma es

/-- csv.Writer.Write at byte granularity: each field rendered (quoted when
needed), fields joined by commas, the record terminated by a newline
(UseCRLF unset). -/
def renderRow (r : List String) : String :=
  ⟨joinComma (r.map renderField) ++ ['\n']⟩

/-- The aggregator loop of the directory branch (extract.go lines 155-163)
at byte granularity: the header is written into the csv writer, then the
rows of each arriving per-shard result; `arrivals` lists the per-shard
results in completion order, so after k arrivals the shards beyond the
k-th are still being processed. -/
def aggregate (arrivals : List (List ImageRecord)) : BufWriter :=
  arrivals.foldl
    (fun st recs =>
      recs.foldl (fun st r => bufWrite st (renderRow (labelRow r))) st)
    (bufWrite ⟨"", ""⟩ (renderRow headerRow))

/-- The full rendered CSV text of a run. -/
def csvText (arrivals : List (List ImageRecord)) : String :=
  String.join (renderRow headerRow ::
    arrivals.flatten.map (fun r => renderRow (labelRow r)))

/-! ### Lemmas about the decimal rendering -/

theorem natDecGo_congr (f₁ : Nat) : ∀ f₂ n, n < f₁ → n < f₂ →
    natDecGo f₁ n = natDecGo f₂ n := by
  induction f₁ with
  | zero => intro f₂ n h₁ _; omega
  | succ f ih =>
    intro f₂ n h₁ h₂
    cases f₂ with
    | zero => omega
    | succ g =>
      by_cases h : n < 10
      · simp [natDecGo, h]
      · simp only [natDecGo, if_neg h]
        rw [ih g (n / 10) (by omega) (by omega)]

theorem natDecL_eq (n : Nat) :
    natDecL n = if n < 10 then [Char.ofNat (48 + n)]
      else natDecL (n / 10) ++ [Char.ofNat (48 + n % 10)] := by
  by_cases h : n < 10
  · simp [natDecL, natDecGo, h]
  · rw [if_neg h]
    unfold natDecL
    conv_lhs => rw [natDecGo]
    rw [if_neg h, natDecGo_congr n (n / 10 + 1) (n / 10) (by omega) (by omega)]

theorem digit_toNat (d : Nat) (h : d < 10) :
    (Char.ofNat (48 + d)).toNat = 48 + d := by
  interval_cases d <;> decide

/-- Reading the digits back; used to show the rendering injective. -/
def parseDec (cs : List Char) : Nat :=
  cs.foldl (fun a c => a * 10 + (c.toNat - 48)) 0

theorem parseDec_append_digit (cs : List Char) (c : Char) :
    parseDec (cs ++ [c]) = parseDec cs * 10 + (c.toNat - 48) := by
  simp [parseDec, List.foldl_append]

theorem parseDec_natDecL (n : Nat) : parseDec (natDecL n) = n := by
  induction n using Nat.strong_induction_on with
  | _ n ih =>
    rw [natDecL_eq]
    by_cases h : n < 10
    · simp [h, parseDec, digit_toNat n h]
    · simp only [if_neg h]
      rw [parseDec_append_digit, ih (n / 10) (by omega),
        digit_toNat (n % 10) (by omega)]
      omega

theorem natDecL_inj {m n : Nat} (h : natDecL m = natDecL n) : m = n := by
  have hm := parseDec_natDecL m
  rw [h, parseDec_natDecL n] at hm
  omega

theorem natDecL_chars (n : Nat) :
    ∀ c ∈ natDecL n, 48 ≤ c.toNat ∧ c.toNat ≤ 57 := by
  induction n using Nat.strong_induction_on with
  | _ n ih =>
    rw [natDecL_eq]
    by_cases h : n < 10
    · simp only [if_pos h, List.mem_singleton]
      intro c hc
      subst hc
      rw [digit_toNat n h]
      omega
    · simp only [if_neg h]
      intro c hc
      rcases List.mem_append.mp hc with h1 | h2
      · exact ih (n / 10) (by omega) c h1
      · have hc2 : c = Char.ofNat (48 + n % 10) := by simpa using h2
        subst hc2
        rw [digit_toNat (n % 10) (by omega)]
        omega

theorem natDecL_ne_nil (n : Nat) : natDecL n ≠ [] := by
  rw [natDecL_eq]
  by_cases h : n < 10 <;> simp [h]

theorem intDecL_inj {i j : Int} (h : intDecL i = intDecL j) : i = j := by
  have hdash : ('-' : Char).toNat = 45 := by decide
  unfold intDecL at h
  by_cases hi : i < 0 <;> by_cases hj : j < 0
  · rw [if_pos hi, if_pos hj] at h
    injection h with _ h2
    have := natDecL_inj h2
    omega
  · rw [if_pos hi, if_neg hj] at h
    exfalso
    have hm : ('-' : Char) ∈ natDecL j.natAbs := by
      rw [← h]; exact List.mem_cons_self _ _
    have := natDecL_chars j.natAbs _ hm
    omega
  · rw [if_neg hi, if_pos hj] at h
    exfalso
    have hm : ('-' : Char) ∈ natDecL i.natAbs := by
      rw [h]; exact List.mem_cons_self _ _
    have := natDecL_chars i.natAbs _ hm
    omega
  · rw [if_neg hi, if_neg hj] at h
    have := natDecL_inj h
    omega

theorem natDecL_no_slash (n : Nat) : ('/' : Char) ∉ natDecL n := by
  intro hm
  have := natDecL_chars n _ hm
  have h47 : ('/' : Char).toNat = 47 := by decide
  omega

theorem intDecL_no_slash (i : Int) : ('/' : Char) ∉ intDecL i := by
  intro hm
  unfold intDecL at hm
  by_cases hi : i < 0 <;> simp only [if_pos, if_neg, hi] at hm
  · rcases List.mem_cons.mp hm with h | h
    · exact absurd h (by decide)
    · exact natDecL_no_slash _ h
  · exact natDecL_no_slash _ hm

/-! ### Splitting a path at its separators -/

theorem slash_split (a₁ : List Char) : ∀ a₂ (b₁ b₂ : List Char),
    ('/' : Char) ∉ a₁ → ('/' : Char) ∉ a₂ →
    a₁ ++ '/' :: b₁ = a₂ ++ '/' :: b₂ → a₁ = a₂ ∧ b₁ = b₂ := by
  induction a₁ with
  | nil =>
    intro a₂ b₁ b₂ _ h2 h
    cases a₂ with
    | nil => simpa using h
    | cons d u =>
      exfalso
      simp only [List.nil_append, List.cons_append, List.cons.injEq] at h
      exact h2 (h.1 ▸ List.mem_cons_self _ _)
  | cons c t ih =>
    intro a₂ b₁ b₂ h1 h2 h
    cases a₂ with
    | nil =>
      exfalso
      simp only [List.nil_append, List.cons_append, List.cons.injEq] at h
      exact h1 (h.1 ▸ List.mem_cons_self _ _)
    | cons d u =>
      simp only [List.cons_append, List.cons.injEq] at h
      obtain ⟨hcd, hrest⟩ := h
      have h1t : ('/' : Char) ∉ t := fun hx => h1 (List.mem_cons_of_mem _ hx)
      have h2u : ('/' : Char) ∉ u := fun hx => h2 (List.mem_cons_of_mem _ hx)
      obtain ⟨ht, hb⟩ := ih u b₁ b₂ h1t h2u hrest
      exact ⟨by rw [hcd, ht], hb⟩

theorem stringDataInj {a b : String} (h : a.data = b.data) : a = b := by
  cases a
  cases b
  exact congrArg String.mk h

/-! ### Splitting, cleaning and joining path elements -/

theorem splitSlash_cons_slash (t : List Char) :
    splitSlash ('/' :: t) = [] :: splitSlash t := by
  conv_lhs => rw [splitSlash]
  rw [if_pos rfl]

theorem splitSlash_cons_ne (c : Char) (t : List Char) (hc : ¬ c = '/')
    (e : List Char) (es : List (List Char)) (h : splitSlash t = e :: es) :
    splitSlash (c :: t) = (c :: e) :: es := by
  conv_lhs => rw [splitSlash]
  rw [if_neg hc, h]

theorem splitSlash_ne_nil (xs : List Char) : splitSlash xs ≠ [] := by
  induction xs with
  | nil => simp [splitSlash]
  | cons c t ih =>
    by_cases hc : c = '/'
    · subst hc
      rw [splitSlash_cons_slash]
      simp
    · cases h : splitSlash t with
      | nil => exact absurd h ih
      | cons e es =>
        rw [splitSlash_cons_ne c t hc e es h]
        simp

theorem splitSlash_append (xs : List Char) : ∀ ys,
    splitSlash (xs ++ '/' :: ys) = splitSlash xs ++ splitSlash ys := by
  induction xs with
  | nil =>
    intro ys
    rw [List.nil_append, splitSlash_cons_slash]
    rfl
  | cons c t ih =>
    intro ys
    rw [List.cons_append]
    by_cases hc : c = '/'
    · subst hc
      rw [splitSlash_cons_slash, splitSlash_cons_slash, ih]
      rfl
    · obtain ⟨e, es, h⟩ : ∃ e es, splitSlash t = e :: es := by
        cases h : splitSlash t with
        | nil => exact absurd h (splitSlash_ne_nil t)
        | cons e es => exact ⟨e, es, rfl⟩
      have h2 : splitSlash (t ++ '/' :: ys) = e :: (es ++ splitSlash ys) := by
        rw [ih, h]
        rfl
      rw [splitSlash_cons_ne c _ hc _ _ h2, splitSlash_cons_ne c _ hc _ _ h]
      rfl

theorem splitSlash_no_slash (xs : List Char) :
    ∀ e ∈ splitSlash xs, ('/' : Char) ∉ e := by
  induction xs with
  | nil =>
    intro e he
    simp only [splitSlash, List.mem_singleton] at he
    subst he
    simp
  | cons c t ih =>
    by_cases hc : c = '/'
    · subst hc
      rw [splitSlash_cons_slash]
      intro e he
      rcases List.mem_cons.mp he with h | h
      · subst h
        simp
      · exact ih e h
    · obtain ⟨e0, es, h⟩ : ∃ e0 es, splitSlash t = e0 :: es := by
        cases h : splitSlash t with
        | nil => exact absurd h (splitSlash_ne_nil t)
        | cons e0 es => exact ⟨e0, es, rfl⟩
      rw [splitSlash_cons_ne c t hc e0 es h]
      intro e he
      rcases List.mem_cons.mp he with h1 | h1
      · subst h1
        intro hmem
        rcases List.mem_cons.mp hmem with h2 | h2
        · exact hc h2.symm
        · exact ih e0 (h ▸ List.mem_cons_self _ _) h2
      · exact ih e (h ▸ List.mem_cons_of_mem _ h1)

theorem splitSlash_single (xs : List Char) (h : ('/' : Char) ∉ xs) :
    splitSlash xs = [xs] := by
  induction xs with
  | nil => rfl
  | cons c t ih =>
    have hc : ¬ c = '/' := by
      intro he
      exact h (by rw [he]; exact List.mem_cons_self _ _)
    have ht := ih (fun hm => h (List.mem_cons_of_mem _ hm))
    rw [splitSlash_cons_ne c t hc t [] ht]

/-- A plain path element: nonempty, not dot, not dot-dot, and free of the
separator — such an element passes through filepath.Join unchanged. -/
abbrev plainElem (e : List Char) : Prop :=
  e ≠ [] ∧ e ≠ ['.'] ∧ e ≠ ['.', '.'] ∧ ('/' : Char) ∉ e

theorem cleanPushR_plain (st : List (List Char)) (e : List Char)
    (h : plainElem e) : cleanPushR st e = st ++ [e] := by
  obtain ⟨h1, h2, h3, _⟩ := h
  unfold cleanPushR
  rw [if_neg (by simp [h1, h2]), if_neg h3]

theorem foldl_cleanPushR_good (es : List (List Char)) :
    ∀ st, (∀ x ∈ st, x ≠ [] ∧ ('/' : Char) ∉ x) →
    (∀ e ∈ es, ('/' : Char) ∉ e) →
    ∀ x ∈ List.foldl cleanPushR st es, x ≠ [] ∧ ('/' : Char) ∉ x := by
  induction es with
  | nil =>
    intro st hst _ x hx
    exact hst x hx
  | cons e rest ih =>
    intro st hst hes
    rw [List.foldl_cons]
    apply ih
    · intro x hx
      unfold cleanPushR at hx
      by_cases h1 : e = [] ∨ e = ['.']
      · rw [if_pos h1] at hx
        exact hst x hx
      · rw [if_neg h1] at hx
        by_cases h2 : e = ['.', '.']
        · rw [if_pos h2] at hx
          exact hst x (List.dropLast_subset st hx)
        · rw [if_neg h2] at hx
          rcases List.mem_append.mp hx with h | h
          · exact hst x h
          · have hxe : x = e := by simpa using h
            refine ⟨?_, ?_⟩
            · rw [hxe]
              exact fun hn => h1 (Or.inl hn)
            · rw [hxe]
              exact hes e (List.mem_cons_self _ _)
    · intro a ha
      exact hes a (List.mem_cons_of_mem _ ha)

theorem joinSlash_inj : ∀ es₁ es₂ : List (List Char),
    (∀ e ∈ es₁, e ≠ [] ∧ ('/' : Char) ∉ e) →
    (∀ e ∈ es₂, e ≠ [] ∧ ('/' : Char) ∉ e) →
    joinSlash es₁ = joinSlash es₂ → es₁ = es₂ := by
  intro es₁
  induction es₁ with
  | nil =>
    intro es₂ _ h2 h
    cases es₂ with
    | nil => rfl
    | cons e es =>
      exfalso
      cases es with
      | nil => exact (h2 e (List.mem_cons_self _ _)).1 h.symm
      | cons e2 es' =>
        rw [show joinSlash (e :: e2 :: es') =
          e ++ '/' :: joinSlash (e2 :: es') from rfl] at h
        have hnil := List.append_eq_nil.mp h.symm
        exact absurd hnil.2 (by simp)
  | cons e1 t1 ih =>
    intro es₂ h1 h2 h
    cases es₂ with
    | nil =>
      exfalso
      cases t1 with
      | nil => exact (h1 e1 (List.mem_cons_self _ _)).1 h
      | cons e12 t1' =>
        rw [show joinSlash (e1 :: e12 :: t1') =
          e1 ++ '/' :: joinSlash (e12 :: t1') from rfl] at h
        have hnil := List.append_eq_nil.mp h
        exact absurd hnil.2 (by simp)
    | cons e2 t2 =>
      cases t1 with
      | nil =>
        cases t2 with
        | nil =>
          have he : e1 = e2 := h
          rw [he]
        | cons e22 t2' =>
          exfalso
          have hsl := (h1 e1 (List.mem_cons_self _ _)).2
          rw [show joinSlash (e2 :: e22 :: t2') =
            e2 ++ '/' :: joinSlash (e22 :: t2') from rfl] at h
          apply hsl
          rw [show joinSlash [e1] = e1 from rfl] at h
          rw [h]
          exact List.mem_append.mpr (Or.inr (List.mem_cons_self _ _))
      | cons e12 t1' =>
        cases t2 with
        | nil =>
          exfalso
          have hsl := (h2 e2 (List.mem_cons_self _ _)).2
          rw [show joinSlash (e1 :: e12 :: t1') =
            e1 ++ '/' :: joinSlash (e12 :: t1') from rfl] at h
          apply hsl
          rw [show joinSlash [e2] = e2 from rfl] at h
          rw [← h]
          exact List.mem_append.mpr (Or.inr (List.mem_cons_self _ _))
        | cons e22 t2' =>
          rw [show joinSlash (e1 :: e12 :: t1') =
            e1 ++ '/' :: joinSlash (e12 :: t1') from rfl,
            show joinSlash (e2 :: e22 :: t2') =
            e2 ++ '/' :: joinSlash (e22 :: t2') from rfl] at h
          obtain ⟨he, hj⟩ := slash_split e1 e2 _ _
            (h1 e1 (List.mem_cons_self _ _)).2
            (h2 e2 (List.mem_cons_self _ _)).2 h
          have hrest := ih (e22 :: t2')
            (fun x hx => h1 x (List.mem_cons_of_mem _ hx))
            (fun x hx => h2 x (List.mem_cons_of_mem _ hx)) hj
          rw [he, hrest]

theorem intDecL_ne_nil (i : Int) : intDecL i ≠ [] := by
  unfold intDecL
  by_cases hi : i < 0
  · rw [if_pos hi]
    simp
  · rw [if_neg hi]
    exact natDecL_ne_nil _

/-- The file name <id>.jpg is always a plain path element. -/
theorem fname_plain (i : Int) :
    plainElem (intDecL i ++ (".jpg" : String).data) := by
  have h4 : ((".jpg" : String).data).length = 4 := by decide
  have hpos : 0 < (intDecL i).length :=
    List.length_pos.mpr (intDecL_ne_nil i)
  refine ⟨?_, ?_, ?_, ?_⟩
  · intro h
    have hnil := List.append_eq_nil.mp h
    exact absurd hnil.2 (by decide)
  · intro h
    have hl := congrArg List.length h
    rw [List.length_append, h4] at hl
    simp at hl
  · intro h
    have hl := congrArg List.length h
    rw [List.length_append, h4] at hl
    simp at hl
  · intro hm
    rcases List.mem_append.mp hm with h | h
    · exact intDecL_no_slash i h
    · exact absurd h (by decide)

theorem imagePath_eq (outdir : String) (od : List Char)
    (hod : outdir.data = '/' :: od) (img : Image)
    (hplain : plainElem img.LabelText.data) :
    (imagePath outdir img).data =
      '/' :: joinSlash (List.foldl cleanPushR [] (splitSlash od) ++
        [img.LabelText.data, intDecL img.ID ++ (".jpg" : String).data]) := by
  have hodne : outdir ≠ "" := by
    intro h
    rw [h] at hod
    exact absurd hod (by simp)
  have hltne : img.LabelText ≠ "" := by
    intro h
    exact hplain.1 (by rw [h])
  have hfne : intDec img.ID ++ ".jpg" ≠ "" := by
    intro h
    have hd := congrArg String.data h
    rw [String.data_append] at hd
    have hnil := List.append_eq_nil.mp hd
    exact absurd hnil.2 (by decide)
  have hfilter : List.filter (fun e => !(e ==""))
      [outdir, img.LabelText, intDec img.ID ++ ".jpg"] =
      [outdir, img.LabelText, intDec img.ID ++ ".jpg"] := by
    simp [List.filter, beq_eq_false_iff_ne.mpr hodne,
      beq_eq_false_iff_ne.mpr hltne, beq_eq_false_iff_ne.mpr hfne]
  unfold imagePath filepathJoin
  rw [hfilter]
  rw [if_neg (by simp)]
  show cleanPath (joinSlash ([outdir, img.LabelText,
    intDec img.ID ++ ".jpg"].map String.data)) = _
  have hjoin : joinSlash ([outdir, img.LabelText,
      intDec img.ID ++ ".jpg"].map String.data) =
      outdir.data ++ '/' :: (img.LabelText.data ++ '/' ::
        (intDecL img.ID ++ (".jpg" : String).data)) := by
    show joinSlash [outdir.data, img.LabelText.data,
      (intDec img.ID ++ ".jpg").data] = _
    rw [show (intDec img.ID ++ ".jpg").data =
      intDecL img.ID ++ (".jpg" : String).data from rfl]
    rfl
  rw [hjoin, hod, List.cons_append]
  rw [show cleanPath ('/' :: (od ++ '/' :: (img.LabelText.data ++ '/' ::
      (intDecL img.ID ++ (".jpg" : String).data)))) =
    '/' :: joinSlash (List.foldl cleanPushR [] (splitSlash (od ++ '/' ::
      (img.LabelText.data ++ '/' ::
        (intDecL img.ID ++ (".jpg" : String).data))))) from by
    unfold cleanPath
    dsimp only
    rw [if_pos rfl]]
  rw [splitSlash_append, splitSlash_append,
    splitSlash_single _ hplain.2.2.2,
    splitSlash_single _ (fname_plain img.ID).2.2.2]
  rw [List.foldl_append]
  simp only [List.singleton_append, List.foldl_cons, List.foldl_nil]
  rw [cleanPushR_plain _ _ hplain, cleanPushR_plain _ _ (fname_plain img.ID)]
  simp [List.append_assoc]

theorem imagePath_plain_inj (outdir : String) (od : List Char)
    (hod : outdir.data = '/' :: od) (i j : Image)
    (hi : plainElem i.LabelText.data) (hj : plainElem j.LabelText.data)
    (h : imagePath outdir i = imagePath outdir j) :
    i.LabelText = j.LabelText ∧ i.ID = j.ID := by
  have hd := congrArg String.data h
  rw [imagePath_eq outdir od hod i hi, imagePath_eq outdir od hod j hj] at hd
  injection hd with _ hd2
  have hbase : ∀ x ∈ List.foldl cleanPushR [] (splitSlash od),
      x ≠ [] ∧ ('/' : Char) ∉ x :=
    foldl_cleanPushR_good (splitSlash od) [] (by simp)
      (splitSlash_no_slash od)
  have hgood : ∀ img : Image, plainElem img.LabelText.data →
      ∀ e ∈ List.foldl cleanPushR [] (splitSlash od) ++
        [img.LabelText.data, intDecL img.ID ++ (".jpg" : String).data],
      e ≠ [] ∧ ('/' : Char) ∉ e := by
    intro img hp e he
    rcases List.mem_append.mp he with h | h
    · exact hbase e h
    · rcases List.mem_cons.mp h with h | h
      · subst h
        exact ⟨hp.1, hp.2.2.2⟩
      · rcases List.mem_cons.mp h with h | h
        · subst h
          exact ⟨(fname_plain img.ID).1, (fname_plain img.ID).2.2.2⟩
        · simp at h
  have hels := joinSlash_inj _ _ (hgood i hi) (hgood j hj) hd2
  have hlist := List.append_cancel_left hels
  injection hlist with h1 hrest
  injection hrest with h2 _
  exact ⟨stringDataInj h1, intDecL_inj (List.append_cancel_right h2)⟩

/-! ### Characterizing the extraction loop -/

theorem extractSteps_ok (outdir : String) (steps : List ShardStep) :
    ∀ fs fs' recs, extractSteps outdir fs steps = (fs', .ok recs) →
    recs = (entitiesOf steps).map (recordOf outdir) ∧
    fs' = fs ++ (entitiesOf steps).map (imagePath outdir) := by
  induction steps with
  | nil =>
    intro fs fs' recs h
    simp only [extractSteps, Prod.mk.injEq] at h
    obtain ⟨h1, h2⟩ := h
    injection h2 with h2
    simp [entitiesOf, ← h1, ← h2]
  | cons s rest ih =>
    intro fs fs' recs h
    cases s with
    | nextErr e => simp [extractSteps] at h
    | imageErr e => simp [extractSteps] at h
    | entity img mkdirRes saveRes =>
      cases mkdirRes with
      | some e => simp [extractSteps] at h
      | none =>
        cases saveRes with
        | some e => simp [extractSteps] at h
        | none =>
          simp only [extractSteps] at h
          cases hrec : extractSteps outdir (fs ++ [imagePath outdir img]) rest with
          | mk fs'' res =>
            rw [hrec] at h
            cases res with
            | error e => simp at h
            | ok recs' =>
              simp only [Prod.mk.injEq] at h
              obtain ⟨h1, h2⟩ := h
              injection h2 with h2
              obtain ⟨ih1, ih2⟩ := ih _ _ _ hrec
              subst h1
              constructor
              · rw [← h2, ih1]
                simp [entitiesOf, stepImage?, List.filterMap_cons]
              · rw [ih2]
                simp [entitiesOf, stepImage?, List.filterMap_cons]

theorem extractFile_ok (shard : Shard) (outdir : String) (compress : Bool)
    (fs fs' : List String) (recs : List ImageRecord)
    (h : extractFile shard outdir compress fs = (fs', .ok recs)) :
    recs = (shardEntities shard).map (recordOf outdir) ∧
    fs' = fs ++ (shardEntities shard).map (imagePath outdir) := by
  unfold extractFile at h
  cases ho : shard.openErr with
  | some e => rw [ho] at h; simp at h
  | none =>
    rw [ho] at h
    cases compress with
    | false =>
      simp only [if_neg (by simp : ¬ (false = true))] at h
      exact extractSteps_ok outdir shard.steps fs fs' recs h
    | true =>
      simp only [if_pos rfl] at h
      cases hz : shard.zlibErr with
      | some e => rw [hz] at h; simp at h
      | none =>
        rw [hz] at h
        exact extractSteps_ok outdir shard.steps fs fs' recs h

theorem extractSteps_error (outdir : String) (good : List ShardStep)
    (bad : ShardStep) (rest : List ShardStep) (e : Err)
    (hgood : ∀ s ∈ good, stepErr? s = none) (hbad : stepErr? bad = some e) :
    ∀ fs, extractSteps outdir fs (good ++ bad :: rest) =
      (fs ++ (entitiesOf good).map (imagePath outdir), .error e) := by
  induction good with
  | nil =>
    intro fs
    cases bad with
    | nextErr e' =>
      simp only [stepErr?, Option.some.injEq] at hbad
      subst hbad
      simp [extractSteps, entitiesOf]
    | imageErr e' =>
      simp only [stepErr?, Option.some.injEq] at hbad
      subst hbad
      simp [extractSteps, entitiesOf]
    | entity img mkdirRes saveRes =>
      cases mkdirRes with
      | some e' =>
        simp only [stepErr?, Option.some.injEq] at hbad
        subst hbad
        simp [extractSteps, entitiesOf]
      | none =>
        cases saveRes with
        | some e' =>
          simp only [stepErr?, Option.some.injEq] at hbad
          subst hbad
          simp [extractSteps, entitiesOf]
        | none => simp [stepErr?] at hbad
  | cons s good' ih =>
    intro fs
    have hs : stepErr? s = none := hgood s (List.mem_cons_self _ _)
    cases s with
    | nextErr e' => simp [stepErr?] at hs
    | imageErr e' => simp [stepErr?] at hs
    | entity img mkdirRes saveRes =>
      cases mkdirRes with
      | some e' => simp [stepErr?] at hs
      | none =>
        cases saveRes with
        | some e' => simp [stepErr?] at hs
        | none =>
          have ih' := ih (fun t ht => hgood t (List.mem_cons_of_mem _ ht))
          simp only [List.cons_append, extractSteps, List.append_eq]
          rw [ih' (fs ++ [imagePath outdir img])]
          simp [entitiesOf, stepImage?, List.filterMap_cons]

/-- Claim C1: For every shard path on which extractFile returns successfully,
the returned list holds exactly one IndexRecord per decoded entity, in
decode order; the image file of each entity has been saved (its path is in
the final filesystem, written at the position matching the record), and each
record carries exactly that file path and the fields of its entity. -/
theorem extractFile_success_records (shard : Shard) (outdir : String)
    (compress : Bool) (fs fs' : List String) (recs : List ImageRecord)
    (h : extractFile shard outdir compress fs = (fs', .ok recs)) :
    recs = (shardEntities shard).map (recordOf outdir) ∧
    fs' = fs ++ (shardEntities shard).map (imagePath outdir) ∧
    (∀ r ∈ recs, r.Path ∈ fs') ∧
    ∀ img : Image, recordOf outdir img =
      ⟨imagePath outdir img, img.ID, img.LabelID, img.LabelText,
        img.Organization⟩ := by
  obtain ⟨h1, h2⟩ := extractFile_ok shard outdir compress fs fs' recs h
  refine ⟨h1, h2, ?_, fun img => rfl⟩
  intro r hr
  rw [h1] at hr
  obtain ⟨img, himg, hr⟩ := List.mem_map.mp hr
  rw [h2, ← hr]
  exact List.mem_append.mpr (Or.inr (List.mem_map_of_mem _ himg))

def c1Shard : Shard :=
  ⟨none, none, [.entity ⟨1, 0, "cat", "acme"⟩ none none,
                .entity ⟨2, 1, "dog", "acme"⟩ none none]⟩

def c1Files : List String := ["/out/cat/1.jpg", "/out/dog/2.jpg"]

def c1Recs : List ImageRecord :=
  [⟨"/out/cat/1.jpg", 1, 0, "cat", "acme"⟩,
   ⟨"/out/dog/2.jpg", 2, 1, "dog", "acme"⟩]

/-- Witness for C1 on a concrete two-entity shard. -/
theorem extractFile_success_records_witness :
    extractFile c1Shard "/out" false [] = (c1Files, .ok c1Recs) ∧
    (c1Recs = (shardEntities c1Shard).map (recordOf "/out") ∧
     c1Files = [] ++ (shardEntities c1Shard).map (imagePath "/out") ∧
     (∀ r ∈ c1Recs, r.Path ∈ c1Files) ∧
     ∀ img : Image, recordOf "/out" img =
       ⟨imagePath "/out" img, img.ID, img.LabelID, img.LabelText,
         img.Organization⟩) :=
  ⟨rfl, extractFile_success_records c1Shard "/out" false [] c1Files c1Recs rfl⟩

/-- Claim C2: A shard whose N-th reader iteration raises a decode,
directory-creation or write error makes extractFile abort at once with that
very error and no record list; the filesystem keeps exactly the image files
of the first N-1 entities (beyond whatever was there before), and the
single-file run of such a shard hands no row at all to the index. -/
theorem extractFile_aborts_on_error (shard : Shard) (outdir : String)
    (compress : Bool) (fs : List String) (good : List ShardStep)
    (bad : ShardStep) (rest : List ShardStep) (e : Err)
    (hsteps : shard.steps = good ++ bad :: rest)
    (hopen : shard.openErr = none)
    (hzlib : compress = true → shard.zlibErr = none)
    (hgood : ∀ s ∈ good, stepErr? s = none)
    (hbad : stepErr? bad = some e) :
    extractFile shard outdir compress fs =
      (fs ++ (entitiesOf good).map (imagePath outdir), .error e) ∧
    ∀ ce fe : Option Err,
      (extractSingle shard outdir compress ce fe).rows = [] ∧
      (extractSingle shard outdir compress ce fe).records = [] ∧
      (extractSingle shard outdir compress ce fe).err = some e := by
  have haux : ∀ fs0, extractFile shard outdir compress fs0 =
      (fs0 ++ (entitiesOf good).map (imagePath outdir), .error e) := by
    intro fs0
    unfold extractFile
    rw [hopen]
    cases compress with
    | false =>
      simp only [if_neg (by simp : ¬ (false = true))]
      rw [hsteps]
      exact extractSteps_error outdir good bad rest e hgood hbad fs0
    | true =>
      simp only [if_pos rfl]
      rw [hzlib rfl, hsteps]
      exact extractSteps_error outdir good bad rest e hgood hbad fs0
  refine ⟨haux fs, ?_⟩
  intro ce fe
  unfold extractSingle
  rw [haux []]
  simp

def c2Shard : Shard :=
  ⟨none, none, [.entity ⟨1, 0, "cat", "acme"⟩ none none,
                .nextErr "corrupt record",
                .entity ⟨2, 1, "dog", "acme"⟩ none none]⟩

/-- Witness for C2: the second iteration fails decoding; the first image
file survives, the error propagates, no rows reach the index. -/
theorem extractFile_aborts_on_error_witness :
    extractFile c2Shard "/out" false [] =
      ([] ++ (entitiesOf [ShardStep.entity ⟨1, 0, "cat", "acme"⟩ none none]).map
        (imagePath "/out"), .error "corrupt record") ∧
    ∀ ce fe : Option Err,
      (extractSingle c2Shard "/out" false ce fe).rows = [] ∧
      (extractSingle c2Shard "/out" false ce fe).records = [] ∧
      (extractSingle c2Shard "/out" false ce fe).err = some "corrupt record" :=
  extractFile_aborts_on_error c2Shard "/out" false []
    [.entity ⟨1, 0, "cat", "acme"⟩ none none] (.nextErr "corrupt record")
    [.entity ⟨2, 1, "dog", "acme"⟩ none none] "corrupt record"
    rfl rfl (fun h => by simp at h) (by decide) rfl

/-! ### The single-file branch of Extract -/

/-- Claim C7: When the single shard extracts successfully but yields no
record, Extract fails the whole run with the error "No images found". -/
theorem extract_no_images (w : World)
    (hout : w.outPath.length ≠ 0) (habs : w.absErr = none)
    (hmk : w.mkOutdirErr = none) (hstat : w.statErr = none)
    (hdir : w.statIsDir = false)
    (h : extractFile (w.shardAt w.inputPath) w.outdir w.compress [] =
      ((extractFile (w.shardAt w.inputPath) w.outdir w.compress []).1, .ok [])) :
    (Extract w).err = some "No images found" := by
  unfold Extract
  rw [if_neg hout, habs, hmk, hstat, hdir]
  simp only [Bool.not_false, if_pos]
  unfold extractSingle
  rw [h]
  simp

def c7World : World :=
  { inputPath := "/in/shard0"
    outPath := "out"
    outdir := "/abs/out"
    absErr := none
    mkOutdirErr := none
    statErr := none
    statIsDir := false
    entries := []
    shardAt := fun _ => ⟨none, none, []⟩
    compress := false
    threads := 1
    numCPU := 4
    createInfoErr := none
    readDirErr := none
    flushErr := none }

/-- Witness for C7: an empty shard file makes the run fail with
"No images found". -/
theorem extract_no_images_witness :
    (Extract c7World).err = some "No images found" :=
  extract_no_images c7World (by decide) rfl rfl rfl rfl rfl

/-- Claim C10: In single-file mode a run whose extraction errors or produces
zero records returns before os.Create of the index: info.csv is neither
created nor written (no row reaches it), and the run ends in an error. -/
theorem extract_single_fail_no_info (w : World)
    (hout : w.outPath.length ≠ 0) (habs : w.absErr = none)
    (hmk : w.mkOutdirErr = none) (hstat : w.statErr = none)
    (hdir : w.statIsDir = false)
    (h : (extractFile (w.shardAt w.inputPath) w.outdir w.compress []).2 = .ok []
      ∨ ∃ e, (extractFile (w.shardAt w.inputPath) w.outdir w.compress []).2 =
        .error e) :
    (Extract w).infoCreated = false ∧ (Extract w).rows = [] ∧
    (Extract w).err ≠ none := by
  unfold Extract
  rw [if_neg hout, habs, hmk, hstat, hdir]
  simp only [Bool.not_false, if_pos]
  unfold extractSingle
  cases hx : extractFile (w.shardAt w.inputPath) w.outdir w.compress [] with
  | mk fs res =>
    cases res with
    | error e => simp
    | ok images =>
      rcases h with h | ⟨e, h⟩
      · rw [hx] at h
        injection h with h
        subst h
        simp
      · rw [hx] at h
        simp at h

def c10World : World :=
  { inputPath := "/in/shard0"
    outPath := "out"
    outdir := "/abs/out"
    absErr := none
    mkOutdirErr := none
    statErr := none
    statIsDir := false
    entries := []
    shardAt := fun _ => ⟨some "open shard0: no such file", none, []⟩
    compress := false
    threads := 1
    numCPU := 4
    createInfoErr := none
    readDirErr := none
    flushErr := none }

/-- Witness for C10: a shard that fails to open leaves info.csv uncreated
and unwritten. -/
theorem extract_single_fail_no_info_witness :
    (Extract c10World).infoCreated = false ∧ (Extract c10World).rows = [] ∧
    (Extract c10World).err ≠ none :=
  extract_single_fail_no_info c10World (by decide) rfl rfl rfl rfl
    (Or.inr ⟨"open shard0: no such file", rfl⟩)

/-! ### The enumeration order -/

theorem charListLt_asym : ∀ a b : List Char,
    charListLt a b = true → charListLt b a = false := by
  intro a
  induction a with
  | nil =>
    intro b h
    cases b with
    | nil => simp [charListLt] at h
    | cons y ys => simp [charListLt]
  | cons x xs ih =>
    intro b h
    cases b with
    | nil => simp [charListLt] at h
    | cons y ys =>
      simp only [charListLt] at h ⊢
      by_cases h1 : x.toNat < y.toNat
      · rw [if_neg (by omega : ¬ y.toNat < x.toNat), if_pos h1]
      · rw [if_neg h1] at h
        by_cases h2 : y.toNat < x.toNat
        · rw [if_pos h2] at h
          simp at h
        · rw [if_neg h2] at h
          rw [if_neg h2, if_neg h1]
          exact ih ys h

theorem charListLt_trans : ∀ a b c : List Char,
    charListLt a b = true → charListLt b c = true → charListLt a c = true := by
  intro a
  induction a with
  | nil =>
    intro b c hab hbc
    cases b with
    | nil => simp [charListLt] at hab
    | cons y ys =>
      cases c with
      | nil => simp [charListLt] at hbc
      | cons z zs => simp [charListLt]
  | cons x xs ih =>
    intro b c hab hbc
    cases b with
    | nil => simp [charListLt] at hab
    | cons y ys =>
      cases c with
      | nil => simp [charListLt] at hbc
      | cons z zs =>
        simp only [charListLt] at hab hbc ⊢
        by_cases hxy : x.toNat < y.toNat
        · by_cases hyz : y.toNat < z.toNat
          · rw [if_pos (by omega : x.toNat < z.toNat)]
          · rw [if_neg hyz] at hbc
            by_cases hzy : z.toNat < y.toNat
            · rw [if_pos hzy] at hbc
              simp at hbc
            · rw [if_pos (by omega : x.toNat < z.toNat)]
        · rw [if_neg hxy] at hab
          by_cases hyx : y.toNat < x.toNat
          · rw [if_pos hyx] at hab
            simp at hab
          · rw [if_neg hyx] at hab
            by_cases hyz : y.toNat < z.toNat
            · rw [if_pos (by omega : x.toNat < z.toNat)]
            · rw [if_neg hyz] at hbc
              by_cases hzy : z.toNat < y.toNat
              · rw [if_pos hzy] at hbc
                simp at hbc
              · rw [if_neg hzy] at hbc
                rw [if_neg (by omega : ¬ x.toNat < z.toNat),
                  if_neg (by omega : ¬ z.toNat < x.toNat)]
                exact ih ys zs hab hbc

theorem insertByName_perm (a : DirEnt) (l : List DirEnt) :
    (insertByName a l).Perm (a :: l) := by
  induction l with
  | nil => simp [insertByName]
  | cons b t ih =>
    simp only [insertByName]
    by_cases h : nameLt a.name b.name
    · rw [if_pos h]
    · rw [if_neg h]
      exact (ih.cons b).trans (List.Perm.swap a b t)

theorem sortByName_perm (l : List DirEnt) : (sortByName l).Perm l := by
  induction l with
  | nil => simp [sortByName]
  | cons a t ih => exact (insertByName_perm a (sortByName t)).trans (ih.cons a)

/-- The order in which `enumerate` emits two entries: the later one is not
below the earlier one in the byte-wise name order. -/
def nameOrdered (a b : DirEnt) : Prop :=
  nameLt b.name a.name = false

theorem insertByName_sorted (a : DirEnt) (l : List DirEnt)
    (h : l.Pairwise nameOrdered) :
    (insertByName a l).Pairwise nameOrdered := by
  induction l with
  | nil => simp [insertByName, List.Pairwise]
  | cons b t ih =>
    simp only [insertByName]
    rcases List.pairwise_cons.mp h with ⟨hbt, ht⟩
    by_cases hab : nameLt a.name b.name
    · rw [if_pos hab]
      refine List.pairwise_cons.mpr ⟨?_, h⟩
      intro x hx
      rcases List.mem_cons.mp hx with hx | hx
      · subst hx
        exact charListLt_asym _ _ hab
      · unfold nameOrdered
        by_cases hxa : nameLt x.name a.name
        · exfalso
          have hxb : nameLt x.name b.name = true :=
            charListLt_trans _ _ _ hxa hab
          rw [hbt x hx] at hxb
          simp at hxb
        · simpa using hxa
    · rw [if_neg hab]
      refine List.pairwise_cons.mpr ⟨?_, ih ht⟩
      intro x hx
      rcases List.mem_cons.mp ((insertByName_perm a t).mem_iff.mp hx) with hx | hx
      · subst hx
        unfold nameOrdered
        simpa using hab
      · exact hbt x hx

theorem sortByName_sorted (l : List DirEnt) :
    (sortByName l).Pairwise nameOrdered := by
  induction l with
  | nil => simp [sortByName]
  | cons a t ih => exact insertByName_sorted a (sortByName t) ih

/-- Claim C6, amended: The enumerator emits a single-file input as the
one-element sequence of that path; for a directory input it emits exactly
the non-directory entries (a permutation of the raw listing restricted to
files), joined under the input path, in ascending byte-wise filename order
(the order guaranteed by ioutil.ReadDir), not in raw listing order. -/
theorem enumerate_order (p : String) (raw : List DirEnt) :
    enumerate p false raw = [p] ∧
    (sortByName raw).Perm raw ∧
    ((sortByName raw).filter fun f => !f.isDir).Pairwise nameOrdered ∧
    enumerate p true raw =
      (((sortByName raw).filter fun f => !f.isDir).map
        fun f => pathJoin p f.name) :=
  ⟨rfl, sortByName_perm raw, (sortByName_sorted raw).filter _, rfl⟩

/-- Counterexample to C6 as stated: with the raw listing order b, a the
enumerator emits a before b (ioutil.ReadDir sorts by filename), not the
listing order the claim requires. -/
theorem enumerate_not_listing_order :
    enumerate "in" true [⟨"b", false⟩, ⟨"a", false⟩] = ["in/a", "in/b"] ∧
    enumerateListingOrder "in" true [⟨"b", false⟩, ⟨"a", false⟩] =
      ["in/b", "in/a"] ∧
    enumerate "in" true [⟨"b", false⟩, ⟨"a", false⟩] ≠
      enumerateListingOrder "in" true [⟨"b", false⟩, ⟨"a", false⟩] := by
  refine ⟨by decide, by decide, by decide⟩

/-! ### The directory branch on an empty directory -/

/-- Claim C8: A directory input whose entries are all sub-directories (or
absent) enumerates to no shard paths, and the run completes without error,
with no records and an index holding only the header row. -/
theorem extract_dir_empty (w : World)
    (hout : w.outPath.length ≠ 0) (habs : w.absErr = none)
    (hmk : w.mkOutdirErr = none) (hstat : w.statErr = none)
    (hdir : w.statIsDir = true)
    (hentries : ∀ f ∈ w.entries, f.isDir = true)
    (hc : w.createInfoErr = none) (hr : w.readDirErr = none)
    (hf : w.flushErr = none) :
    enumerate w.inputPath true w.entries = [] ∧
    (Extract w).err = none ∧ (Extract w).records = [] ∧
    (Extract w).rows = [headerRow] := by
  have hfilter : ((sortByName w.entries).filter fun f => !f.isDir) = [] := by
    apply List.filter_eq_nil_iff.mpr
    intro f hfmem
    have : f ∈ w.entries := (sortByName_perm w.entries).mem_iff.mp hfmem
    simp [hentries f this]
  have henum : enumerate w.inputPath true w.entries = [] := by
    unfold enumerate
    rw [if_pos rfl, hfilter]
    rfl
  refine ⟨henum, ?_⟩
  unfold Extract
  rw [if_neg hout, habs, hmk, hstat, hdir]
  simp only [Bool.not_true, Bool.false_eq_true, if_neg]
  unfold extractDir
  rw [hc, hr, henum]
  simp [processShards, writeLabels, hf]

def c8World : World :=
  { inputPath := "/in"
    outPath := "out"
    outdir := "/abs/out"
    absErr := none
    mkOutdirErr := none
    statErr := none
    statIsDir := true
    entries := [⟨"sub1", true⟩, ⟨"sub2", true⟩]
    shardAt := fun _ => ⟨none, none, []⟩
    compress := false
    threads := 2
    numCPU := 4
    createInfoErr := none
    readDirErr := none
    flushErr := none }

/-- Witness for C8 on a directory holding only two sub-directories. -/
theorem extract_dir_empty_witness :
    enumerate c8World.inputPath true c8World.entries = [] ∧
    (Extract c8World).err = none ∧ (Extract c8World).records = [] ∧
    (Extract c8World).rows = [headerRow] :=
  extract_dir_empty c8World (by decide) rfl rfl rfl rfl (by decide) rfl rfl rfl

/-! ### The index file format -/

theorem intDecL_chars (i : Int) :
    ∀ c ∈ intDecL i, c.toNat = 45 ∨ (48 ≤ c.toNat ∧ c.toNat ≤ 57) := by
  intro c hc
  unfold intDecL at hc
  by_cases hi : i < 0
  · rw [if_pos hi] at hc
    rcases List.mem_cons.mp hc with h | h
    · subst h
      left
      decide
    · right
      exact natDecL_chars _ _ h
  · rw [if_neg hi] at hc
    right
    exact natDecL_chars _ _ hc

theorem intDec_ne_id (i : Int) : intDec i ≠ "id" := by
  intro h
  have hd : intDecL i = ['i', 'd'] := congrArg String.data h
  have hm : ('i' : Char) ∈ intDecL i := by
    rw [hd]
    exact List.mem_cons_self _ _
  have := intDecL_chars i _ hm
  have hi : ('i' : Char).toNat = 105 := by decide
  omega

theorem labelRow_ne_headerRow (r : ImageRecord) : labelRow r ≠ headerRow := by
  intro h
  unfold labelRow headerRow at h
  have := intDec_ne_id r.ID
  simp only [List.cons.injEq] at h
  exact this h.2.1

/-- Claim C9: Every successful run, in either mode, writes the fixed header
row exactly once, before any data row; the data rows are exactly one row
per collected IndexRecord, in order, with id and label_id rendered by the
decimal integer rendering (whose characters are a minus sign or digits). -/
theorem index_csv_format (shard : Shard) (inputPath outdir : String)
    (entries : List DirEnt) (shardAt : String → Shard) (compress : Bool)
    (ce re fe : Option Err)
    (hs : (extractSingle shard outdir compress ce fe).err = none)
    (hd : (extractDir inputPath entries shardAt outdir compress
      ce re fe).err = none) :
    (extractSingle shard outdir compress ce fe).rows =
      headerRow :: writeLabels (extractSingle shard outdir compress ce fe).records ∧
    (extractDir inputPath entries shardAt outdir compress ce re fe).rows =
      headerRow :: writeLabels
        (extractDir inputPath entries shardAt outdir compress ce re fe).records ∧
    (∀ recs : List ImageRecord,
      (headerRow :: writeLabels recs).count headerRow = 1) ∧
    (∀ r : ImageRecord, labelRow r =
      [r.Path, intDec r.ID, intDec r.LabelID, r.LabelText, r.Organization]) ∧
    (∀ i : Int, ∀ c ∈ (intDec i).data,
      c.toNat = 45 ∨ (48 ≤ c.toNat ∧ c.toNat ≤ 57)) := by
  have hcount : ∀ recs : List ImageRecord,
      (headerRow :: writeLabels recs).count headerRow = 1 := by
    intro recs
    rw [List.count_cons_self]
    have : (writeLabels recs).count headerRow = 0 := by
      apply List.count_eq_zero.mpr
      intro hmem
      obtain ⟨r, _, hr⟩ := List.mem_map.mp hmem
      exact labelRow_ne_headerRow r hr
    omega
  refine ⟨?_, ?_, hcount, fun r => rfl, fun i => intDecL_chars i⟩
  · unfold extractSingle at hs ⊢
    cases hx : extractFile shard outdir compress [] with
    | mk fs res =>
      rw [hx] at hs
      cases res with
      | error e => simp at hs
      | ok images =>
        dsimp only at hs ⊢
        by_cases hl : images.length = 0
        · rw [if_pos hl] at hs
          simp at hs
        · rw [if_neg hl] at hs ⊢
          cases hce : ce with
          | some e => rw [hce] at hs; simp at hs
          | none => rfl
  · unfold extractDir at hd ⊢
    cases hce : ce with
    | some e => rw [hce] at hd; simp at hd
    | none =>
      rw [hce] at hd
      dsimp only at hd ⊢
      cases hre : re with
      | some e => rw [hre] at hd; simp at hd
      | none =>
        rw [hre] at hd
        dsimp only at hd ⊢
        cases hps : processShards outdir compress []
            ((enumerate inputPath true entries).map shardAt) with
        | mk fs res =>
          rw [hps] at hd
          cases res with
          | error e => simp at hd
          | ok ls => rfl

def c9World : World :=
  { inputPath := "/in/shard0"
    outPath := "out"
    outdir := "/abs/out"
    absErr := none
    mkOutdirErr := none
    statErr := none
    statIsDir := false
    entries := []
    shardAt := fun _ => c1Shard
    compress := false
    threads := 1
    numCPU := 4
    createInfoErr := none
    readDirErr := none
    flushErr := none }

/-- Witness for C9: a successful single-file run and a successful (empty)
directory run both produce header-then-rows output. -/
theorem index_csv_format_witness :
    (extractSingle c1Shard "/out" false none none).rows =
      headerRow :: writeLabels (extractSingle c1Shard "/out" false none none).records ∧
    (extractDir "/in" [] c9World.shardAt "/out" false none none none).rows =
      headerRow :: writeLabels
        (extractDir "/in" [] c9World.shardAt "/out" false none none none).records ∧
    (∀ recs : List ImageRecord,
      (headerRow :: writeLabels recs).count headerRow = 1) ∧
    (∀ r : ImageRecord, labelRow r =
      [r.Path, intDec r.ID, intDec r.LabelID, r.LabelText, r.Organization]) ∧
    (∀ i : Int, ∀ c ∈ (intDec i).data,
      c.toNat = 45 ∨ (48 ≤ c.toNat ∧ c.toNat ≤ 57)) :=
  index_csv_format c1Shard "/in" "/out" [] c9World.shardAt false none none none
    rfl rfl

/-! ### Duplicate paths in the index -/

theorem processShards_ok (outdir : String) (compress : Bool) :
    ∀ (shards : List Shard) (fs fs' : List String)
      (ls : List (List ImageRecord)),
    processShards outdir compress fs shards = (fs', .ok ls) →
    ls = shards.map (fun s => (shardEntities s).map (recordOf outdir)) := by
  intro shards
  induction shards with
  | nil =>
    intro fs fs' ls h
    simp only [processShards, Prod.mk.injEq] at h
    injection h.2 with h2
    simp [← h2]
  | cons s rest ih =>
    intro fs fs' ls h
    simp only [processShards] at h
    cases hx : extractFile s outdir compress fs with
    | mk fs1 res1 =>
      rw [hx] at h
      cases res1 with
      | error e => simp at h
      | ok recs =>
        dsimp only at h
        cases hp : processShards outdir compress fs1 rest with
        | mk fs2 res2 =>
          rw [hp] at h
          cases res2 with
          | error e => simp at h
          | ok ls2 =>
            simp only [Prod.mk.injEq] at h
            injection h.2 with h2
            have hrecs := (extractFile_ok s outdir compress fs fs1 recs hx).1
            rw [← h2, hrecs, ih fs1 fs2 ls2 hp]
            simp

/-- Counterexample to C4 as stated: one shard decoding two entities with the
same (labelText, id) pair produces two IndexRecords carrying the same Path,
so the output of a run can repeat a path; moreover even with distinct
(labelText, id) pairs the paths can coincide, because filepath.Join skips
empty elements and cleans dot elements — the labels dot and empty both
resolve to <outdir>/1.jpg. -/
theorem run_paths_dup_counterexample :
    (extractSingle ⟨none, none,
        [.entity ⟨1, 0, "cat", "acme"⟩ none none,
         .entity ⟨1, 0, "cat", "zeta"⟩ none none]⟩
      "/o" false none none).records.map (fun r => r.Path) =
      ["/o/cat/1.jpg", "/o/cat/1.jpg"] ∧
    ¬ (extractSingle ⟨none, none,
        [.entity ⟨1, 0, "cat", "acme"⟩ none none,
         .entity ⟨1, 0, "cat", "zeta"⟩ none none]⟩
      "/o" false none none).records.Pairwise (fun a b => a.Path ≠ b.Path) ∧
    (extractSingle ⟨none, none,
        [.entity ⟨1, 0, ".", "acme"⟩ none none,
         .entity ⟨1, 0, "", "zeta"⟩ none none]⟩
      "/o" false none none).records.map (fun r => r.Path) =
      ["/o/1.jpg", "/o/1.jpg"] ∧
    ¬ (extractSingle ⟨none, none,
        [.entity ⟨1, 0, ".", "acme"⟩ none none,
         .entity ⟨1, 0, "", "zeta"⟩ none none]⟩
      "/o" false none none).records.Pairwise (fun a b => a.Path ≠ b.Path) := by
  refine ⟨rfl, by decide, rfl, by decide⟩

theorem flatten_map_map {α β γ : Type} (f : β → γ) (g : α → List β)
    (L : List α) :
    (L.map (fun s => (g s).map f)).flatten = ((L.map g).flatten).map f := by
  induction L with
  | nil => rfl
  | cons a t ih => simp [ih]

/-- Claim C4, amended: In any run whose shards all extract successfully
into an absolute output directory, no two IndexRecords share a path,
provided the decoded entities have pairwise distinct (labelText, id) pairs
and every label text is a plain path element (nonempty, not dot, not
dot-dot, no separator); entities repeating a (labelText, id) pair — or
whose labels alias through the empty-element skipping and cleaning of
filepath.Join — yield records that share a path (see the counterexample). -/
theorem run_paths_distinct (outdir : String) (od : List Char)
    (hroot : outdir.data = '/' :: od) (compress : Bool)
    (fs fs' : List String) (shards : List Shard)
    (ls : List (List ImageRecord))
    (h : processShards outdir compress fs shards = (fs', .ok ls))
    (hplain : ∀ img ∈ allEntities shards, plainElem img.LabelText.data)
    (hdist : (allEntities shards).Pairwise
      (fun a b => a.LabelText ≠ b.LabelText ∨ a.ID ≠ b.ID)) :
    ls.flatten.Pairwise (fun a b => a.Path ≠ b.Path) := by
  have hls := processShards_ok outdir compress shards fs fs' ls h
  have hflat : ls.flatten = (allEntities shards).map (recordOf outdir) := by
    rw [hls]
    unfold allEntities
    exact flatten_map_map (recordOf outdir) shardEntities shards
  rw [hflat, List.pairwise_map]
  refine List.Pairwise.imp_of_mem ?_ hdist
  intro a b ha hb hr hpath
  obtain ⟨hl, hid⟩ :=
    imagePath_plain_inj outdir od hroot a b (hplain a ha) (hplain b hb) hpath
  rcases hr with hlt | hidne
  · exact hlt hl
  · exact hidne hid

def c2aShard : Shard :=
  ⟨none, none, [.entity ⟨3, 0, "cat", "acme"⟩ none none]⟩

/-- Witness for the amended C4: a two-shard run with pairwise distinct
(labelText, id) pairs and plain labels has pairwise distinct record
paths. -/
theorem run_paths_distinct_witness :
    processShards "/out" false [] [c1Shard, c2aShard] =
      (["/out/cat/1.jpg", "/out/dog/2.jpg", "/out/cat/3.jpg"],
        .ok [[⟨"/out/cat/1.jpg", 1, 0, "cat", "acme"⟩,
              ⟨"/out/dog/2.jpg", 2, 1, "dog", "acme"⟩],
             [⟨"/out/cat/3.jpg", 3, 0, "cat", "acme"⟩]]) ∧
    ([[⟨"/out/cat/1.jpg", 1, 0, "cat", "acme"⟩,
       ⟨"/out/dog/2.jpg", 2, 1, "dog", "acme"⟩],
      [⟨"/out/cat/3.jpg", 3, 0, "cat", "acme"⟩]] :
        List (List ImageRecord)).flatten.Pairwise
      (fun a b => a.Path ≠ b.Path) :=
  ⟨rfl, run_paths_distinct "/out" ("out" : String).data rfl false []
    (["/out/cat/1.jpg", "/out/dog/2.jpg", "/out/cat/3.jpg"])
    [c1Shard, c2aShard] _ rfl (by decide) (by decide)⟩

/-! ### Observability of the index while shards are in progress -/

/-- The byte strings the aggregator hands to the csv writer over one run:
the rendered header, then the rendered row of every record, in arrival
order. -/
def writesOf (arr : List (List ImageRecord)) : List String :=
  renderRow headerRow :: arr.flatten.map (fun r => renderRow (labelRow r))

theorem stringJoin_cons (w : String) (ws : List String) :
    String.join (w :: ws) = w ++ String.join ws := by
  rw [String.join_eq, String.join_eq]
  apply stringDataInj
  simp [String.data_append]

theorem stringJoinLength (ws : List String) :
    (String.join ws).length = (ws.map String.length).sum := by
  rw [String.join_eq]
  show ((ws.map String.data).flatten).length = _
  rw [List.length_flatten, List.map_map]
  rfl

theorem utf8LenL_append (a b : List Char) :
    utf8LenL (a ++ b) = utf8LenL a + utf8LenL b := by
  simp [utf8LenL]

theorem utf8Len_append (a b : String) :
    utf8Len (a ++ b) = utf8Len a + utf8Len b := by
  show utf8LenL (a ++ b).data = _
  rw [String.data_append, utf8LenL_append]
  rfl

theorem utf8Len_join (ws : List String) :
    utf8Len (String.join ws) = (ws.map utf8Len).sum := by
  induction ws with
  | nil => rfl
  | cons w ws ih =>
    rw [stringJoin_cons, utf8Len_append, ih, List.map_cons, List.sum_cons]

theorem csvText_eq (arr : List (List ImageRecord)) :
    csvText arr = String.join (writesOf arr) := rfl

theorem aggregate_eq (arr : List (List ImageRecord)) :
    aggregate arr = (writesOf arr).foldl bufWrite ⟨"", ""⟩ := by
  unfold aggregate writesOf
  rw [List.foldl_cons]
  generalize bufWrite ⟨"", ""⟩ (renderRow headerRow) = st
  induction arr generalizing st with
  | nil => rfl
  | cons recs rest ih =>
    simp only [List.foldl_cons, List.flatten_cons, List.map_append,
      List.foldl_append]
    have e := (List.foldl_map (fun r => renderRow (labelRow r)) bufWrite
      recs st).symm
    rw [e]
    exact ih _

theorem foldl_bufWrite_no_spill (ws : List String) : ∀ st : BufWriter,
    st.file = "" →
    utf8Len st.buf + (ws.map utf8Len).sum ≤ bufSize →
    (ws.foldl bufWrite st).file = "" ∧
    (ws.foldl bufWrite st).buf = st.buf ++ String.join ws := by
  induction ws with
  | nil =>
    intro st hf _
    refine ⟨hf, ?_⟩
    show st.buf = st.buf ++ String.join []
    simp [String.join]
  | cons w ws ih =>
    intro st hf hlen
    simp only [List.map_cons, List.sum_cons] at hlen
    simp only [List.foldl_cons]
    have hcond : utf8Len (st.buf ++ w) ≤ bufSize := by
      rw [utf8Len_append]
      omega
    have hbw : bufWrite st w = { st with buf := st.buf ++ w } := by
      unfold bufWrite
      rw [if_pos hcond]
    rw [hbw]
    have hrec := ih { st with buf := st.buf ++ w } hf
      (by show utf8Len (st.buf ++ w) + (ws.map utf8Len).sum ≤ bufSize
          rw [utf8Len_append]
          omega)
    refine ⟨hrec.1, ?_⟩
    rw [hrec.2, stringJoin_cons, String.append_assoc]

def c5BigPath : String :=
  ⟨List.replicate 5000 'a'⟩

def c5BigRec : ImageRecord :=
  ⟨c5BigPath, 1, 0, "cat", "acme"⟩

def c5Arrivals : List (List ImageRecord) :=
  [[c5BigRec], [⟨"/o/dog/2.jpg", 2, 1, "dog", "acme"⟩]]

theorem sum_replicate_nat (n x : Nat) : (List.replicate n x).sum = n * x := by
  induction n with
  | zero => simp
  | succ k ih =>
    rw [List.replicate_succ, List.sum_cons, ih]
    ring

theorem c5BigPath_bytes : utf8LenL c5BigPath.data = 5000 := by
  show utf8LenL (List.replicate 5000 'a') = 5000
  unfold utf8LenL
  rw [List.map_replicate, sum_replicate_nat]
  have h1 : ('a' : Char).utf8Size = 1 := by decide
  rw [h1]

set_option maxRecDepth 4096 in
theorem c5BigPath_noquote : fieldNeedsQuotes c5BigPath = false := by
  have hdata : c5BigPath.data = List.replicate 5000 'a' := rfl
  have h1 : ¬ (c5BigPath = "") := by
    intro h
    have hd : c5BigPath.data.length = ("" : String).data.length := by
      rw [h]
    rw [hdata, List.length_replicate] at hd
    have hR : ("" : String).data.length = 0 := rfl
    rw [hR] at hd
    omega
  have h2 : ¬ (c5BigPath = "\\.") := by
    intro h
    have hd : c5BigPath.data.length = ("\\." : String).data.length := by
      rw [h]
    rw [hdata, List.length_replicate] at hd
    have hR : ("\\." : String).data.length = 2 := by decide
    rw [hR] at hd
    omega
  have h3 : (c5BigPath.data.any
      (fun c => c == ',' || c == '"' || c == '\r' || c == '\n')) = false := by
    rw [hdata, List.any_eq_false]
    intro x hx
    rw [List.eq_of_mem_replicate hx]
    decide
  unfold fieldNeedsQuotes
  rw [if_neg h1, if_neg h2]
  rw [if_neg (show ¬ (c5BigPath.data.any
      (fun c => c == ',' || c == '"' || c == '\r' || c == '\n') = true) from by
    rw [h3]
    simp)]
  rw [hdata, show List.replicate 5000 'a' = 'a' :: List.replicate 4999 'a'
    from rfl]
  show isUnicodeSpace 'a' = false
  decide

theorem c5BigRow_bytes : 5000 ≤ utf8Len (renderRow (labelRow c5BigRec)) := by
  have hrf : renderField c5BigPath = c5BigPath.data := by
    unfold renderField
    rw [c5BigPath_noquote]
    simp
  show 5000 ≤ utf8LenL (joinComma
    ([c5BigPath, intDec 1, intDec 0, "cat", "acme"].map renderField) ++ ['\n'])
  simp only [List.map_cons, List.map_nil]
  rw [hrf]
  rw [show joinComma (c5BigPath.data :: renderField (intDec 1) ::
      renderField (intDec 0) :: renderField "cat" :: renderField "acme" :: []) =
    c5BigPath.data ++ ',' :: joinComma (renderField (intDec 1) ::
      renderField (intDec 0) :: renderField "cat" :: renderField "acme" :: [])
    from rfl]
  rw [List.append_assoc, utf8LenL_append, c5BigPath_bytes]
  omega

set_option maxRecDepth 4096 in
/-- Counterexample to C5 as stated: a per-shard result whose rendered rows
overflow the 4096-byte csv buffer is written through to info.csv upon
arrival, while the second shard of the run has not yet delivered its result
— a partial index is observable before all shard processing completes. -/
theorem aggregate_spill_counterexample :
    1 < c5Arrivals.length ∧ (aggregate (c5Arrivals.take 1)).file ≠ "" := by
  refine ⟨by decide, ?_⟩
  intro hfile
  have hagg : aggregate (c5Arrivals.take 1) =
      bufWrite (bufWrite ⟨"", ""⟩ (renderRow headerRow))
        (renderRow (labelRow c5BigRec)) := by
    simp only [c5Arrivals, List.take_succ_cons, List.take_zero, aggregate,
      List.foldl_cons, List.foldl_nil]
  rw [hagg] at hfile
  have h1 : bufWrite (⟨"", ""⟩ : BufWriter) (renderRow headerRow) =
      ⟨"", "" ++ renderRow headerRow⟩ := by
    unfold bufWrite
    rw [if_pos (by decide : utf8Len (("" : String) ++ renderRow headerRow) ≤
      bufSize)]
  rw [h1] at hfile
  have h2 : bufWrite (⟨"", "" ++ renderRow headerRow⟩ : BufWriter)
      (renderRow (labelRow c5BigRec)) =
      ⟨"" ++ ("" ++ renderRow headerRow) ++ renderRow (labelRow c5BigRec),
        ""⟩ := by
    unfold bufWrite
    rw [if_neg ?_]
    show ¬ utf8Len (("" ++ renderRow headerRow) ++
      renderRow (labelRow c5BigRec)) ≤ bufSize
    rw [utf8Len_append]
    have hrow := c5BigRow_bytes
    unfold bufSize
    omega
  rw [h2] at hfile
  have hlen := congrArg utf8Len hfile
  rw [utf8Len_append, utf8Len_append] at hlen
  have hrow := c5BigRow_bytes
  have h0 : utf8Len "" = 0 := rfl
  rw [h0] at hlen
  omega

/-- Claim C5, amended: The rows of a run are buffered by the csv writer and
reach info.csv only at the final flush, which happens after every per-shard
result has arrived — provided the whole rendered CSV (quoting included)
fits the 4096-byte buffer: then after any prefix of the arrivals the file
is still empty, and the final flush writes exactly the full CSV text. Runs
whose rendered output exceeds the buffer spill to the file while shards are
still in progress (see the counterexample). -/
theorem aggregate_buffered (arrivals : List (List ImageRecord))
    (h : utf8Len (csvText arrivals) ≤ bufSize) :
    (∀ k, (aggregate (arrivals.take k)).file = "") ∧
    (bufFlush (aggregate arrivals)).file = csvText arrivals := by
  have hsumFull : ((writesOf arrivals).map utf8Len).sum ≤ bufSize := by
    have hj := utf8Len_join (writesOf arrivals)
    rw [csvText_eq, hj] at h
    exact h
  have key : ∀ arr : List (List ImageRecord),
      ((writesOf arr).map utf8Len).sum ≤ bufSize →
      (aggregate arr).file = "" ∧ (aggregate arr).buf = csvText arr := by
    intro arr harr
    rw [aggregate_eq, csvText_eq]
    have hns := foldl_bufWrite_no_spill (writesOf arr) ⟨"", ""⟩ rfl
      (by simpa [utf8Len, utf8LenL] using harr)
    refine ⟨hns.1, ?_⟩
    rw [hns.2]
    simp
  have hsumTake : ∀ k, ((writesOf (arrivals.take k)).map utf8Len).sum ≤
      ((writesOf arrivals).map utf8Len).sum := by
    intro k
    simp only [writesOf, List.map_cons, List.sum_cons]
    have h2 : ((((arrivals.take k).flatten.map
          (fun r => renderRow (labelRow r))).map utf8Len)).sum ≤
        (((arrivals.flatten.map
          (fun r => renderRow (labelRow r))).map utf8Len)).sum := by
      conv_rhs => rw [← List.take_append_drop k arrivals]
      rw [List.flatten_append, List.map_append, List.map_append,
        List.sum_append]
      omega
    omega
  refine ⟨?_, ?_⟩
  · intro k
    exact (key (arrivals.take k) (le_trans (hsumTake k) hsumFull)).1
  · have hk := key arrivals hsumFull
    unfold bufFlush
    rw [hk.1, hk.2]
    simp

def c5SmallArrivals : List (List ImageRecord) :=
  [[⟨"/o/cat/1.jpg", 1, 0, "cat", "acme"⟩],
   [⟨"/o/dog/2.jpg", 2, 1, "dog", "acme"⟩]]

set_option maxRecDepth 8192 in
/-- Witness for the amended C5 on a two-arrival run whose CSV fits the
buffer: nothing reaches the file before the final flush, which writes the
whole text. -/
theorem aggregate_buffered_witness :
    (aggregate (c5SmallArrivals.take 1)).file = "" ∧
    (bufFlush (aggregate c5SmallArrivals)).file = csvText c5SmallArrivals :=
  ⟨(aggregate_buffered c5SmallArrivals (by decide)).1 1,
   (aggregate_buffered c5SmallArrivals (by decide)).2⟩
